import Mathlib

/-!
Shallow embedding of the DatabaseBackend of constance/backends/database.py.

The backend is a cache-aside layer in front of a durable key/value store.
We model Python values as `Option Nat` with `Option.none` playing the role of
the Python value None, which is also what a cache miss returns from
cache.get.  The durable store and the shared cache are association lists
from (already prefixed) string keys to values.  The Django ORM calls and the
Django cache calls are modelled by small executable functions; the
OperationalError / ProgrammingError conditions raised by an unavailable
database are modelled by the boolean field storeUp, and every call site of
the source that catches them is translated by a test of that field.

The state additionally carries ghost counters that record how many times
the backend performed a batched durable scan (nScans, the filter query in
the suppress block of mget), a cache batch get (nGetMany), an autofill call
(nAutofill) and a single-row durable fetch inside get (nStoreGets).  The
counters influence nothing; they only make the operation counts of the
source observable to theorems.
-/

namespace Constance

/-- A stored Python value: `Option.none` models the Python value None. -/
abbrev Val := Option Nat

/-- Python truthiness of a value, as used by the sentinel test
`if self._cache.get(full_cachekey):` in autofill. -/
def truthy : Val → Bool
  | Option.none => false
  | some n => n != 0

/-- First-match association list lookup (the value stored under a key). -/
def alookup {α : Type} : List (String × α) → String → Option α
  | [], _ => none
  | (k', v) :: t, k => if k' = k then some v else alookup t k

/-- Remove every binding of a key. -/
def eraseKey {α : Type} : List (String × α) → String → List (String × α)
  | [], _ => []
  | (k', v) :: t, k => if k' = k then eraseKey t k else (k', v) :: eraseKey t k

/-- Overwrite the value of every binding of a key (a SQL update of the row
holding a unique key). -/
def updateKey {α : Type} : List (String × α) → String → α → List (String × α)
  | [], _, _ => []
  | (k', v') :: t, k, v =>
      if k' = k then (k', v) :: updateKey t k v else (k', v') :: updateKey t k v

/-- Number of bindings of a key (a durable store satisfying the uniqueness
constraint has at most one). -/
def countKey {α : Type} : List (String × α) → String → Nat
  | [], _ => 0
  | (k', _) :: t, k => (if k' = k then 1 else 0) + countKey t k

/-- Django cache.get with default None: a miss and a stored None agree. -/
def cacheGet (c : List (String × Val)) (k : String) : Val :=
  match alookup c k with
  | some v => v
  | none => Option.none

/-- Django cache.set: unconditional overwrite. -/
def cacheSet (c : List (String × Val)) (k : String) (v : Val) : List (String × Val) :=
  (k, v) :: eraseKey c k

/-- Django cache.set_many over the entries of a dict, later entries winning
exactly as later dict assignments do. -/
def cacheSetMany (c : List (String × Val)) (kvs : List (String × Val)) : List (String × Val) :=
  kvs.foldl (fun acc kv => cacheSet acc kv.1 kv.2) c

/-- Django cache.add: write only when the key has no entry at all. -/
def cacheAdd (c : List (String × Val)) (k : String) (v : Val) : List (String × Val) :=
  match alookup c k with
  | some _ => c
  | none => cacheSet c k v

/-- Django cache.get_many: the sub-dict of keys that have an entry. -/
def cacheGetMany (c : List (String × Val)) (ks : List String) : List (String × Val) :=
  ks.filterMap (fun k => (alookup c k).map (fun v => (k, v)))

/-- Django cache.delete_many. -/
def cacheDeleteMany (c : List (String × Val)) (ks : List String) : List (String × Val) :=
  ks.foldl (fun acc k => eraseKey acc k) c

/-- The fixed configuration of a DatabaseBackend instance: DATABASE_PREFIX,
whether DATABASE_CACHE_BACKEND names a cache, DATABASE_CACHE_AUTOFILL_TIMEOUT
(0 models a falsy, disabled timeout) and the keys of settings.CONFIG. -/
structure Config where
  pfx : String
  hasCache : Bool
  autofillTimeout : Nat
  registry : List String
  deriving DecidableEq, Repr

/-- The mutable world the backend acts on: availability and contents of the
durable store, contents of the shared cache, the list of emitted
config_updated notifications (key, old_value, new_value), and the ghost
operation counters. -/
structure BState where
  storeUp : Bool
  store : List (String × Val)
  cache : List (String × Val)
  notifications : List (String × Val × Val)
  nScans : Nat
  nGetMany : Nat
  nAutofill : Nat
  nStoreGets : Nat
  deriving DecidableEq, Repr

/-- add_prefix. -/
def addPfx (cfg : Config) (k : String) : String := cfg.pfx ++ k

/-- self._autofill_cachekey. -/
def autofillCachekey : String := "autofilled"

/-- The prefixed sentinel key full_cachekey. -/
def fullCachekey (cfg : Config) : String := addPfx cfg autofillCachekey

/-- The Python dict comprehension `\x7bself.add_prefix(key): key for key in keys\x7d`
of mget.  Prefixing is injective, so key collisions happen exactly between
equal raw keys and the dict maps the distinct prefixed keys back to their
raw keys; we realise it as an association list over the deduplicated raw
keys. -/
def kdict (cfg : Config) (keys : List String) : List (String × String) :=
  keys.dedup.map (fun k => (addPfx cfg k, k))

/-- The suppress(OperationalError, ProgrammingError) block at the end of
mget: one batched filter(key__in=keys) query over the durable store,
yielding (raw key, value) for every matching row, and yielding nothing when
the store is unavailable.  Bumps the scan counter (the query is attempted
either way). -/
def storeFetch (s : BState) (kmap : List (String × String)) :
    List (String × Val) × BState :=
  let s1 := { s with nScans := s.nScans + 1 }
  if s.storeUp then
    let stored := s.store.filter (fun p => (alookup kmap p.1).isSome)
    (stored.map (fun p => ((alookup kmap p.1).getD "", p.2)), s1)
  else
    ([], s1)

/-- autofill.  Counts every invocation in nAutofill, returns at once when the
timeout is falsy or no cache is configured, returns when the sentinel entry
is cached with a truthy value, and otherwise scans the durable store for
every registry key (mget with fallback=False, which for an empty registry
returns before querying) and writes the sentinel plus all scanned pairs to
the cache in one set_many. -/
def autofill (cfg : Config) (s : BState) : BState :=
  let s0 := { s with nAutofill := s.nAutofill + 1 }
  if cfg.autofillTimeout = 0 ∨ cfg.hasCache = false then s0
  else if truthy (cacheGet s0.cache (fullCachekey cfg)) then s0
  else
    let r := if cfg.registry.isEmpty then ([], s0)
             else storeFetch s0 (kdict cfg cfg.registry)
    let autofillValues := (fullCachekey cfg, (some 1 : Val)) ::
      r.1.map (fun p => (addPfx cfg p.1, p.2))
    { r.2 with cache := cacheSetMany r.2.cache autofillValues }

/-- mget(keys, fallback).  Returns the (eagerly materialised) sequence of
yielded (raw key, value) pairs together with the final state.  With a cache
and fallback=True it batch-gets all prefixed keys, on a shortfall calls
autofill once and batch-gets once more, yields the hits, and sends only the
still-missing keys to the durable store; otherwise everything goes to the
durable store. -/
def mget (cfg : Config) (s : BState) (keys : List String) (fallback : Bool) :
    List (String × Val) × BState :=
  if keys.isEmpty then ([], s)
  else
    let kmap := kdict cfg keys
    if cfg.hasCache && fallback then
      let values0 := cacheGetMany s.cache (kmap.map Prod.fst)
      let s0 := { s with nGetMany := s.nGetMany + 1 }
      let vs :=
        if values0.length ≠ kmap.length then
          let s1 := autofill cfg s0
          (cacheGetMany s1.cache (kmap.map Prod.fst),
            { s1 with nGetMany := s1.nGetMany + 1 })
        else (values0, s0)
      let yielded := vs.1.map (fun p => ((alookup kmap p.1).getD "", p.2))
      let remaining := kmap.filter (fun p => (alookup vs.1 p.1).isNone)
      if remaining.isEmpty then (yielded, vs.2)
      else
        let r := storeFetch vs.2 remaining
        (yielded ++ r.1, r.2)
    else
      storeFetch s kmap

/-- get(key).  Cache phase: a cached None (or no entry) counts as a miss and
triggers one autofill followed by one retried cache get.  Store phase: a
single-row fetch (counted in nStoreGets) whose DoesNotExist and
unavailable-store outcomes both degrade to None, and whose hit is written
back to the cache with add-if-absent. -/
def get (cfg : Config) (s : BState) (key : String) : Val × BState :=
  let k := addPfx cfg key
  let r1 : Val × BState :=
    if cfg.hasCache then
      let v := cacheGet s.cache k
      if v = Option.none then
        let s1 := autofill cfg s
        (cacheGet s1.cache k, s1)
      else (v, s)
    else (Option.none, s)
  if r1.1 = Option.none then
    let s2 := { r1.2 with nStoreGets := r1.2.nStoreGets + 1 }
    if s2.storeUp then
      match alookup s2.store k with
      | some v =>
          if cfg.hasCache then (v, { s2 with cache := cacheAdd s2.cache k v })
          else (v, s2)
      | none => (Option.none, s2)
    else (Option.none, s2)
  else r1

/-- set(key, value).  An unavailable store makes the initial fetch raise
OperationalError and the whole call a silent no-op.  Otherwise an existing
row is updated in place with its previous value captured as old_value, and a
missing row is created with old_value None (sequentially the atomic create
cannot hit IntegrityError; the concurrent race is modelled separately
below).  Afterwards the cache entry is overwritten unconditionally when a
cache is configured, and exactly one config_updated notification carrying
the prefixed key is appended. -/
def set (cfg : Config) (s : BState) (key : String) (value : Val) : BState :=
  let k := addPfx cfg key
  if s.storeUp = false then s
  else
    let r : List (String × Val) × Val :=
      match alookup s.store k with
      | some v0 => (updateKey s.store k value, v0)
      | none => (s.store ++ [(k, value)], Option.none)
    let s1 := { s with store := r.1 }
    let s2 := if cfg.hasCache then { s1 with cache := cacheSet s1.cache k value } else s1
    { s2 with notifications := s2.notifications ++ [(k, r.2, value)] }

/-- The keys the invalidation handler deletes: every prefixed registry key
plus the sentinel. -/
def clearKeys (cfg : Config) : List String :=
  (cfg.registry.map (addPfx cfg)) ++ [fullCachekey cfg]

/-- The post_save handler clear(sender, instance, created): with a cache and
created=False it deletes every prefixed registry key plus the sentinel and
re-runs autofill; otherwise it does nothing. -/
def clear (cfg : Config) (s : BState) (created : Bool) : BState :=
  if cfg.hasCache && !created then
    autofill cfg { s with cache := cacheDeleteMany s.cache (clearKeys cfg) }
  else s

/-- The batch-get hits of mget read against a given cache state. -/
def mgetHits (cfg : Config) (s' : BState) (keys : List String) : List (String × Val) :=
  cacheGetMany s'.cache ((kdict cfg keys).map Prod.fst)

/-- Those hits mapped back to raw keys, the first yields of mget. -/
def mgetYield (cfg : Config) (s' : BState) (keys : List String) : List (String × Val) :=
  (mgetHits cfg s' keys).map (fun p => ((alookup (kdict cfg keys) p.1).getD "", p.2))

/-- The dict entries still unresolved after the cache phase of mget. -/
def mgetPending (cfg : Config) (s' : BState) (keys : List String) : List (String × String) :=
  (kdict cfg keys).filter (fun p => (alookup (mgetHits cfg s' keys) p.1).isNone)

/-! ### Concurrent model of the create race inside set

Two independent processes run set on the same previously absent key against
the shared durable store.  Each durable interaction of set is one atomic
step, matching the atomicity the database grants: the initial
queryset.get(key=key), the atomic create (whose uniqueness check and insert
are indivisible, raising IntegrityError when a row exists), the re-fetch of
the except IntegrityError handler, and the updating save.  The cache write
and the notification that follow touch no durable state and are omitted
here.  The crashed state marks an uncaught exception (it would arise only
if the re-fetch found no row). -/

/-- Program counter of one in-flight set call, with the captured prior
value where the source holds it in a local. -/
inductive PC where
  | start
  | create
  | refetch
  | update (old : Val)
  | done (old : Val)
  | crashed
  deriving DecidableEq, Repr

/-- One atomic durable-store interaction of a set(k, v) call. -/
def pstep (k : String) (v : Val) (store : List (String × Val)) : PC → List (String × Val) × PC
  | PC.start =>
    match alookup store k with
    | some w => (store, PC.update w)
    | none => (store, PC.create)
  | PC.create =>
    match alookup store k with
    | some _ => (store, PC.refetch)
    | none => (store ++ [(k, v)], PC.done Option.none)
  | PC.refetch =>
    match alookup store k with
    | some w => (store, PC.update w)
    | none => (store, PC.crashed)
  | PC.update w => (updateKey store k v, PC.done w)
  | PC.done w => (store, PC.done w)
  | PC.crashed => (store, PC.crashed)

/-- The shared durable store plus both program counters. -/
structure CState where
  store : List (String × Val)
  p1 : PC
  p2 : PC
  deriving DecidableEq, Repr

/-- One scheduler step: true lets writer 1 (value v1) act, false writer 2. -/
def cstep (k : String) (v1 v2 : Val) (st : CState) (b : Bool) : CState :=
  if b then
    let r := pstep k v1 st.store st.p1
    { st with store := r.1, p1 := r.2 }
  else
    let r := pstep k v2 st.store st.p2
    { st with store := r.1, p2 := r.2 }

/-- Run a whole schedule. -/
def crun (k : String) (v1 v2 : Val) (st : CState) : List Bool → CState
  | [] => st
  | b :: rest => crun k v1 v2 (cstep k v1 v2 st b) rest

/-- Remaining-step bound of a writer. -/
def rank : PC → Nat
  | PC.start => 4
  | PC.create => 3
  | PC.refetch => 2
  | PC.update _ => 1
  | PC.done _ => 0
  | PC.crashed => 0

/-- What a writer's program counter guarantees about the shared store: past
the create decision the row exists (and is unique). -/
def PCok (k : String) (store : List (String × Val)) : PC → Prop
  | PC.start => True
  | PC.create => True
  | PC.refetch => countKey store k = 1
  | PC.update _ => countKey store k = 1
  | PC.done _ => countKey store k = 1
  | PC.crashed => False

/-- Invariant of the race: at most one row for k, any row for k holds one
of the two written values, and both counters are consistent and uncrashed. -/
def Inv (k : String) (v1 v2 : Val) (st : CState) : Prop :=
  countKey st.store k ≤ 1 ∧
  (∀ v, alookup st.store k = some v → v = v1 ∨ v = v2) ∧
  PCok k st.store st.p1 ∧ PCok k st.store st.p2

/-! ### Concrete configurations and states used by the witnesses -/

/-- An empty starting state with the store available. -/
def exBase : BState :=
  { storeUp := true, store := [], cache := [], notifications := [],
    nScans := 0, nGetMany := 0, nAutofill := 0, nStoreGets := 0 }

/-- Cache configured, empty prefix, nonzero autofill window, empty registry. -/
def exCfg : Config :=
  { pfx := "", hasCache := true, autofillTimeout := 5, registry := [] }

/-- The default constance prefix with a cache configured. -/
def exCfgPfx : Config :=
  { pfx := "constance:", hasCache := true, autofillTimeout := 0, registry := [] }

/-- Registry with the two keys of the partial-miss scenario. -/
def exCfgAB : Config :=
  { pfx := "", hasCache := true, autofillTimeout := 10, registry := ["A", "B"] }

/-- Store holding A and B, cache holding only A. -/
def exStAB : BState :=
  { exBase with store := [("A", some 1), ("B", some 2)], cache := [("A", some 1)] }

/-- A registry that contains the sentinel raw key itself. -/
def exCfgSent : Config :=
  { pfx := "", hasCache := true, autofillTimeout := 5, registry := ["autofilled"] }

/-- A durable row storing the falsy value 0 under the sentinel raw key. -/
def exStSent : BState := { exBase with store := [("autofilled", some 0)] }

/-- Unavailable store with one stale cached value. -/
def exStDown : BState :=
  { exBase with storeUp := false, cache := [("a", some 7)] }

/-- Registry key A cached entry plus sentinel plus an unrelated entry. -/
def exCfgA : Config :=
  { pfx := "", hasCache := true, autofillTimeout := 5, registry := ["A"] }

/-- State for the invalidation scenario. -/
def exStClear : BState :=
  { exBase with store := [("A", some 3)],
                cache := [("A", some 1), ("autofilled", some 1), ("x", some 9)] }

/-- Cold cache, one durable row for A. -/
def exStA : BState := { exBase with store := [("A", some 3)] }

/-- A cached None entry for key a, with a durable row storing 3. -/
def exStConf : BState :=
  { exBase with store := [("a", some 3)], cache := [("a", Option.none)] }

/-- Configuration whose registry avoids the key a. -/
def exCfgB : Config :=
  { pfx := "", hasCache := true, autofillTimeout := 5, registry := ["B"] }

/-- A cache already warmed: the sentinel is present with its marker value. -/
def exStWarm : BState := { exBase with cache := [("autofilled", some 1)] }

/-! ### Association list lemmas -/

@[simp] theorem alookup_nil {α : Type} (k : String) :
    alookup ([] : List (String × α)) k = none := rfl

@[simp] theorem alookup_cons {α : Type} (k' : String) (v : α) (t : List (String × α))
    (k : String) : alookup ((k', v) :: t) k = if k' = k then some v else alookup t k := rfl

@[simp] theorem eraseKey_nil {α : Type} (k : String) :
    eraseKey ([] : List (String × α)) k = [] := rfl

@[simp] theorem eraseKey_cons {α : Type} (k' : String) (v : α) (t : List (String × α))
    (k : String) :
    eraseKey ((k', v) :: t) k = if k' = k then eraseKey t k else (k', v) :: eraseKey t k := rfl

@[simp] theorem countKey_nil {α : Type} (k : String) :
    countKey ([] : List (String × α)) k = 0 := rfl

@[simp] theorem countKey_cons {α : Type} (k' : String) (v : α) (t : List (String × α))
    (k : String) :
    countKey ((k', v) :: t) k = (if k' = k then 1 else 0) + countKey t k := rfl

@[simp] theorem updateKey_nil {α : Type} (k : String) (v : α) :
    updateKey ([] : List (String × α)) k v = [] := rfl

@[simp] theorem updateKey_cons {α : Type} (k' : String) (v' : α) (t : List (String × α))
    (k : String) (v : α) :
    updateKey ((k', v') :: t) k v
      = if k' = k then (k', v) :: updateKey t k v else (k', v') :: updateKey t k v := rfl

theorem alookup_eraseKey {α : Type} (l : List (String × α)) (k k' : String) :
    alookup (eraseKey l k) k' = if k' = k then none else alookup l k' := by
  induction l with
  | nil => simp
  | cons p t ih =>
    obtain ⟨a, b⟩ := p
    by_cases h : a = k
    · subst h
      by_cases h' : k' = a
      · subst h'
        simp [ih]
      · simp [h', ih, Ne.symm h']
    · by_cases h' : a = k'
      · subst h'
        simp [h, ih]
      · simp [h, h', ih]

@[simp] theorem alookup_cacheSet_self (c : List (String × Val)) (k : String) (v : Val) :
    alookup (cacheSet c k v) k = some v := by
  simp [cacheSet]

theorem alookup_cacheSet_ne (c : List (String × Val)) (k k' : String) (v : Val)
    (h : k' ≠ k) : alookup (cacheSet c k v) k' = alookup c k' := by
  simp [cacheSet, Ne.symm h, alookup_eraseKey, h]

theorem alookup_updateKey_self {α : Type} (l : List (String × α)) (k : String) (v : α) :
    alookup (updateKey l k v) k = (alookup l k).map (fun _ => v) := by
  induction l with
  | nil => simp
  | cons p t ih =>
    obtain ⟨a, b⟩ := p
    by_cases h : a = k <;> simp [h, ih]

theorem alookup_append_none {α : Type} (l l' : List (String × α)) (k : String)
    (h : alookup l k = none) : alookup (l ++ l') k = alookup l' k := by
  induction l with
  | nil => simp
  | cons p t ih =>
    obtain ⟨a, b⟩ := p
    by_cases ha : a = k
    · simp [ha] at h
    · simp [ha] at h ⊢
      exact ih h

theorem alookup_eq_none_iff {α : Type} (l : List (String × α)) (k : String) :
    alookup l k = none ↔ ∀ p ∈ l, p.1 ≠ k := by
  induction l with
  | nil => simp
  | cons p t ih =>
    obtain ⟨a, b⟩ := p
    by_cases h : a = k <;> simp [h, ih]

theorem countKey_eq_zero_iff {α : Type} (l : List (String × α)) (k : String) :
    countKey l k = 0 ↔ alookup l k = none := by
  induction l with
  | nil => simp
  | cons p t ih =>
    obtain ⟨a, b⟩ := p
    by_cases h : a = k <;> simp [h, ih]

theorem alookup_isSome_of_mem {α : Type} {l : List (String × α)} {k : String} {v : α}
    (h : (k, v) ∈ l) : (alookup l k).isSome = true := by
  induction l with
  | nil => simp at h
  | cons p t ih =>
    obtain ⟨a, b⟩ := p
    rcases List.mem_cons.mp h with h1 | h1
    · obtain ⟨h2, h3⟩ := Prod.mk.injEq .. ▸ h1
      simp_all
    · by_cases ha : a = k <;> simp [ha, ih h1]

theorem mem_of_alookup_eq_some {α : Type} {l : List (String × α)} {k : String} {v : α}
    (h : alookup l k = some v) : (k, v) ∈ l := by
  induction l with
  | nil => simp at h
  | cons p t ih =>
    obtain ⟨a, b⟩ := p
    by_cases ha : a = k
    · simp [ha] at h
      simp [ha, h]
    · simp [ha] at h
      exact List.mem_cons_of_mem _ (ih h)

theorem countKey_append {α : Type} (l l' : List (String × α)) (k : String) :
    countKey (l ++ l') k = countKey l k + countKey l' k := by
  induction l with
  | nil => simp
  | cons p t ih =>
    obtain ⟨a, b⟩ := p
    by_cases h : a = k <;> simp [h, ih, Nat.add_assoc]

theorem countKey_updateKey {α : Type} (l : List (String × α)) (k k' : String) (v : α) :
    countKey (updateKey l k v) k' = countKey l k' := by
  induction l with
  | nil => simp
  | cons p t ih =>
    obtain ⟨a, b⟩ := p
    by_cases h : a = k
    · subst h
      simp [ih]
    · simp [h, ih]

theorem updateKey_mem_val {α : Type} {l : List (String × α)} {k : String} {v : α}
    {p : String × α} (hp : p ∈ updateKey l k v) (hk : p.1 = k) : p.2 = v := by
  induction l with
  | nil => simp [updateKey] at hp
  | cons q t ih =>
    obtain ⟨a, b⟩ := q
    by_cases h : a = k
    · simp [h] at hp
      rcases hp with hp | hp
      · simp [hp]
      · exact ih hp
    · simp [h] at hp
      rcases hp with hp | hp
      · exfalso
        apply h
        rw [← hk, hp]
      · exact ih hp

theorem isSome_of_countKey_pos {α : Type} {l : List (String × α)} {k : String}
    (h : 0 < countKey l k) : (alookup l k).isSome = true := by
  rcases ho : alookup l k with _ | v
  · rw [← countKey_eq_zero_iff] at ho
    omega
  · rfl

theorem countKey_pos_of_isSome {α : Type} {l : List (String × α)} {k : String}
    (h : (alookup l k).isSome = true) : 0 < countKey l k := by
  by_contra hc
  have h0 : countKey l k = 0 := by omega
  rw [countKey_eq_zero_iff] at h0
  simp [h0] at h

/-! ### Batch cache operation lemmas -/

@[simp] theorem cacheSetMany_nil (c : List (String × Val)) : cacheSetMany c [] = c := rfl

theorem cacheSetMany_cons (c : List (String × Val)) (kv : String × Val)
    (t : List (String × Val)) :
    cacheSetMany c (kv :: t) = cacheSetMany (cacheSet c kv.1 kv.2) t := rfl

theorem alookup_cacheSetMany_not_mem (c : List (String × Val)) (kvs : List (String × Val))
    (k : String) (h : ∀ kv ∈ kvs, kv.1 ≠ k) :
    alookup (cacheSetMany c kvs) k = alookup c k := by
  induction kvs generalizing c with
  | nil => rfl
  | cons kv t ih =>
    rw [cacheSetMany_cons, ih _ (fun q hq => h q (List.mem_cons_of_mem _ hq))]
    exact alookup_cacheSet_ne _ _ _ _ (fun he => h kv (List.mem_cons_self ..) he.symm)

theorem alookup_cacheSetMany_or (c : List (String × Val)) (kvs : List (String × Val))
    (k : String) :
    alookup (cacheSetMany c kvs) k = alookup c k ∨
      ∃ v, alookup (cacheSetMany c kvs) k = some v ∧ (k, v) ∈ kvs := by
  induction kvs generalizing c with
  | nil => exact Or.inl rfl
  | cons kv t ih =>
    rw [cacheSetMany_cons]
    rcases ih (cacheSet c kv.1 kv.2) with h | ⟨v, hv, hm⟩
    · by_cases hk : kv.1 = k
      · refine Or.inr ⟨kv.2, ?_, ?_⟩
        · rw [h, ← hk, alookup_cacheSet_self]
        · exact List.mem_cons.mpr (Or.inl (by rw [← hk]))
      · exact Or.inl (h.trans (alookup_cacheSet_ne _ _ _ _ (fun he => hk he.symm)))
    · exact Or.inr ⟨v, hv, List.mem_cons_of_mem _ hm⟩

theorem alookup_cacheSetMany_head (c : List (String × Val)) (k : String) (v : Val)
    (t : List (String × Val)) (h : ∀ kv ∈ t, kv.1 ≠ k) :
    alookup (cacheSetMany c ((k, v) :: t)) k = some v := by
  rw [cacheSetMany_cons, alookup_cacheSetMany_not_mem _ _ _ h]
  exact alookup_cacheSet_self _ _ _

theorem alookup_cacheSetMany_isSome_of_mem (c : List (String × Val))
    (kvs : List (String × Val)) (k : String) (h : ∃ v, (k, v) ∈ kvs) :
    (alookup (cacheSetMany c kvs) k).isSome = true := by
  induction kvs generalizing c with
  | nil =>
    obtain ⟨v, hv⟩ := h
    simp at hv
  | cons kv t ih =>
    rw [cacheSetMany_cons]
    by_cases hm : ∃ w, (k, w) ∈ t
    · exact ih _ hm
    · obtain ⟨v, hv⟩ := h
      rcases List.mem_cons.mp hv with h1 | h1
      · have hk : kv.1 = k := by rw [← h1]
        rw [alookup_cacheSetMany_not_mem]
        · rw [← hk, alookup_cacheSet_self]
          rfl
        · intro q hq he
          refine absurd ⟨q.2, ?_⟩ hm
          have hqq : (k, q.2) = q := by rw [← he]
          rw [hqq]
          exact hq
      · exact absurd ⟨v, h1⟩ hm

theorem mem_cacheGetMany {c : List (String × Val)} {ks : List String}
    {p : String × Val} (h : p ∈ cacheGetMany c ks) :
    alookup c p.1 = some p.2 ∧ p.1 ∈ ks := by
  obtain ⟨k, hk, hp⟩ := List.mem_filterMap.mp h
  rcases ho : alookup c k with _ | v
  · simp [ho] at hp
  · simp [ho] at hp
    rw [← hp]
    exact ⟨ho, hk⟩

theorem cacheGetMany_mem_of_alookup {c : List (String × Val)} {ks : List String}
    {k : String} {v : Val} (hk : k ∈ ks) (h : alookup c k = some v) :
    (k, v) ∈ cacheGetMany c ks := by
  apply List.mem_filterMap.mpr
  exact ⟨k, hk, by simp [h]⟩

theorem alookup_cacheDeleteMany (c : List (String × Val)) (ks : List String) (k : String) :
    alookup (cacheDeleteMany c ks) k = if k ∈ ks then none else alookup c k := by
  induction ks generalizing c with
  | nil => simp [cacheDeleteMany]
  | cons a t ih =>
    have hstep : cacheDeleteMany c (a :: t) = cacheDeleteMany (eraseKey c a) t := rfl
    rw [hstep, ih]
    by_cases hm : k ∈ t
    · simp [hm]
    · by_cases ha : k = a <;> simp [hm, ha, alookup_eraseKey]

/-! ### Prefixing and the raw-key dict -/

theorem addPfx_inj {cfg : Config} {a b : String} (h : addPfx cfg a = addPfx cfg b) :
    a = b := by
  have hd := congrArg String.data h
  simp [addPfx, String.data_append] at hd
  exact String.ext hd

theorem mem_kdict {cfg : Config} {keys : List String} {p : String × String}
    (h : p ∈ kdict cfg keys) : p.1 = addPfx cfg p.2 ∧ p.2 ∈ keys := by
  obtain ⟨k, hk, hp⟩ := List.mem_map.mp h
  rw [← hp]
  exact ⟨rfl, List.mem_dedup.mp hk⟩

theorem alookup_kdict_some {cfg : Config} {keys : List String} {x raw : String}
    (h : alookup (kdict cfg keys) x = some raw) :
    addPfx cfg raw = x ∧ raw ∈ keys := by
  have hm := mem_of_alookup_eq_some h
  obtain ⟨h1, h2⟩ := mem_kdict hm
  exact ⟨h1.symm, h2⟩

theorem alookup_pfxmap_self (cfg : Config) (l : List String) (k : String) (h : k ∈ l) :
    alookup (l.map (fun x => (addPfx cfg x, x))) (addPfx cfg k) = some k := by
  induction l with
  | nil => simp at h
  | cons a t ih =>
    rcases List.mem_cons.mp h with h1 | h1
    · subst h1
      simp
    · by_cases ha : addPfx cfg a = addPfx cfg k
      · have haa : a = k := addPfx_inj ha
        subst haa
        simp
      · simp [ha, ih h1]

theorem alookup_kdict_self {cfg : Config} {keys : List String} {k : String}
    (h : k ∈ keys) : alookup (kdict cfg keys) (addPfx cfg k) = some k := by
  rw [kdict]
  exact alookup_pfxmap_self cfg keys.dedup k (List.mem_dedup.mpr h)

theorem kdict_length (cfg : Config) (keys : List String) :
    (kdict cfg keys).length = keys.dedup.length := by
  simp [kdict]

/-! ### cacheGet as lookup -/

theorem cacheGet_eq (c : List (String × Val)) (x : String) :
    cacheGet c x = (alookup c x).getD Option.none := by
  unfold cacheGet
  cases alookup c x <;> rfl

theorem cacheGet_of_alookup_some {c : List (String × Val)} {x : String} {v : Val}
    (h : alookup c x = some v) : cacheGet c x = v := by
  rw [cacheGet_eq, h]
  rfl

theorem cacheGet_congr {c c' : List (String × Val)} {x : String}
    (h : alookup c x = alookup c' x) : cacheGet c x = cacheGet c' x := by
  rw [cacheGet_eq, cacheGet_eq, h]

/-! ### storeFetch and autofill characterisation -/

theorem storeFetch_snd (s : BState) (kmap : List (String × String)) :
    (storeFetch s kmap).2 = { s with nScans := s.nScans + 1 } := by
  unfold storeFetch
  split <;> rfl

/-- The rows of one batched scan, re-prefixed for the cache write of
autofill, are exactly the durable rows whose key the dict mentions. -/
theorem storeFetch_pairs_pfx (cfg : Config) (s : BState) (keys : List String) :
    ((storeFetch s (kdict cfg keys)).1).map (fun p => (addPfx cfg p.1, p.2))
      = if s.storeUp then
          s.store.filter (fun q => (alookup (kdict cfg keys) q.1).isSome)
        else [] := by
  unfold storeFetch
  split
  · rw [List.map_map]
    have hcong : ∀ q ∈ s.store.filter (fun q => (alookup (kdict cfg keys) q.1).isSome),
        ((fun p => (addPfx cfg p.1, p.2)) ∘
          (fun p => ((alookup (kdict cfg keys) p.1).getD "", p.2))) q = id q := by
      intro q hq
      have hqf := (List.mem_filter.mp hq).2
      rcases ho : alookup (kdict cfg keys) q.1 with _ | raw
      · rw [ho] at hqf
        simp at hqf
      · obtain ⟨hp, _⟩ := alookup_kdict_some ho
        simp [Function.comp, ho, hp]
    rw [List.map_congr_left hcong, List.map_id]
  · simp

/-- When the timeout is falsy, no cache is configured, or the sentinel is
cached truthy, autofill only counts its own invocation. -/
theorem autofill_noop (cfg : Config) (s : BState)
    (h : cfg.autofillTimeout = 0 ∨ cfg.hasCache = false ∨
      truthy (cacheGet s.cache (fullCachekey cfg)) = true) :
    autofill cfg s = { s with nAutofill := s.nAutofill + 1 } := by
  by_cases h1 : cfg.autofillTimeout = 0 ∨ cfg.hasCache = false
  · simp [autofill, h1]
  · have h3 : truthy (cacheGet s.cache (fullCachekey cfg)) = true := by tauto
    simp [autofill, h1, h3]

/-- In the warming branch, the new cache is the old cache overwritten with
the sentinel marker followed by the scanned durable rows for the registry
keys (in dict-assignment order, later writes winning). -/
theorem autofill_scan_cache (cfg : Config) (s : BState)
    (h1 : ¬(cfg.autofillTimeout = 0 ∨ cfg.hasCache = false))
    (h2 : truthy (cacheGet s.cache (fullCachekey cfg)) = false) :
    (autofill cfg s).cache =
      cacheSetMany s.cache ((fullCachekey cfg, (some 1 : Val)) ::
        (if s.storeUp && !cfg.registry.isEmpty then
          s.store.filter (fun q => (alookup (kdict cfg cfg.registry) q.1).isSome)
         else [])) := by
  unfold autofill
  rw [if_neg h1, if_neg (by simp [h2])]
  cases hreg : cfg.registry.isEmpty with
  | true => simp [hreg]
  | false =>
    have hpairs := storeFetch_pairs_pfx cfg { s with nAutofill := s.nAutofill + 1 } cfg.registry
    cases hup : s.storeUp with
    | true =>
      simp only [hup] at hpairs
      simp [hreg, hup, storeFetch_snd, hpairs]
    | false =>
      simp only [hup] at hpairs
      simp [hreg, hup, storeFetch_snd, hpairs]

/-- Everything autofill writes besides the sentinel is a durable row whose
key is a prefixed registry key. -/
theorem autofill_written_mem (cfg : Config) (s : BState) {x : String} {v : Val}
    (hm : (x, v) ∈ (if s.storeUp && !cfg.registry.isEmpty then
        s.store.filter (fun q => (alookup (kdict cfg cfg.registry) q.1).isSome)
      else ([] : List (String × Val)))) :
    (x, v) ∈ s.store ∧ ∃ raw ∈ cfg.registry, addPfx cfg raw = x := by
  split at hm
  · have h1 := List.mem_filter.mp hm
    refine ⟨h1.1, ?_⟩
    rcases ho : alookup (kdict cfg cfg.registry) x with _ | raw
    · rw [ho] at h1
      simp at h1
    · obtain ⟨hp, hr⟩ := alookup_kdict_some ho
      exact ⟨raw, hr, hp⟩
  · simp at hm

/-- Frame facts of autofill: it never touches the durable store, the
availability flag, the notification list, nor the get_many or single-get
counters; it counts exactly one invocation and at most one scan. -/
theorem autofill_frame (cfg : Config) (s : BState) :
    (autofill cfg s).store = s.store ∧ (autofill cfg s).storeUp = s.storeUp ∧
    (autofill cfg s).notifications = s.notifications ∧
    (autofill cfg s).nGetMany = s.nGetMany ∧
    (autofill cfg s).nStoreGets = s.nStoreGets ∧
    (autofill cfg s).nAutofill = s.nAutofill + 1 ∧
    s.nScans ≤ (autofill cfg s).nScans ∧ (autofill cfg s).nScans ≤ s.nScans + 1 := by
  by_cases h1 : cfg.autofillTimeout = 0 ∨ cfg.hasCache = false
  · rw [autofill_noop cfg s (by tauto)]
    simp
  · cases h2 : truthy (cacheGet s.cache (fullCachekey cfg)) with
    | true =>
      rw [autofill_noop cfg s (by tauto)]
      simp
    | false =>
      unfold autofill
      rw [if_neg h1, if_neg (by simp [h2])]
      cases hreg : cfg.registry.isEmpty with
      | true => simp [hreg]
      | false =>
        cases hup : s.storeUp with
        | true => simp [hreg, hup, storeFetch]
        | false => simp [hreg, hup, storeFetch]

theorem autofill_cacheGet_untouched (cfg : Config) (s : BState) (x : String)
    (hx : x ≠ fullCachekey cfg)
    (hreg : ∀ raw ∈ cfg.registry, addPfx cfg raw ≠ x) :
    alookup (autofill cfg s).cache x = alookup s.cache x := by
  by_cases h1 : cfg.autofillTimeout = 0 ∨ cfg.hasCache = false
  · rw [autofill_noop cfg s (by tauto)]
  · cases h2 : truthy (cacheGet s.cache (fullCachekey cfg)) with
    | true => rw [autofill_noop cfg s (by tauto)]
    | false =>
      rw [autofill_scan_cache cfg s h1 h2]
      apply alookup_cacheSetMany_not_mem
      intro kv hkv he
      rcases List.mem_cons.mp hkv with hh | hh
      · apply hx
        rw [← he, hh]
      · obtain ⟨_, raw, hr, hpx⟩ := autofill_written_mem cfg s (x := kv.1) (v := kv.2)
          (by rw [Prod.mk.eta]; exact hh)
        exact hreg raw hr (by rw [hpx, he])

/-- If every durable row under a key stores None and the key is not the
sentinel, a cache that resolves the key to None keeps doing so across an
autofill. -/
theorem autofill_cacheGet_stays_none (cfg : Config) (s : BState) (x : String)
    (hx : x ≠ fullCachekey cfg)
    (hst : ∀ p ∈ s.store, p.1 = x → p.2 = Option.none)
    (hc : cacheGet s.cache x = Option.none) :
    cacheGet (autofill cfg s).cache x = Option.none := by
  by_cases h1 : cfg.autofillTimeout = 0 ∨ cfg.hasCache = false
  · rw [autofill_noop cfg s (by tauto)]
    exact hc
  · cases h2 : truthy (cacheGet s.cache (fullCachekey cfg)) with
    | true =>
      rw [autofill_noop cfg s (by tauto)]
      exact hc
    | false =>
      rw [autofill_scan_cache cfg s h1 h2]
      rcases alookup_cacheSetMany_or s.cache ((fullCachekey cfg, (some 1 : Val)) ::
          (if s.storeUp && !cfg.registry.isEmpty then
            s.store.filter (fun q => (alookup (kdict cfg cfg.registry) q.1).isSome)
           else [])) x with h | ⟨v, hv, hm⟩
      · rw [cacheGet_congr h]
        exact hc
      · rcases List.mem_cons.mp hm with hh | hh
        · exact absurd (congrArg Prod.fst hh) hx
        · have hv0 : v = Option.none :=
            hst _ (autofill_written_mem cfg s hh).1 rfl
          rw [cacheGet_of_alookup_some hv, hv0]

/-- Whenever the warming branch runs, a sentinel entry ends up in the cache. -/
theorem autofill_sentinel_isSome (cfg : Config) (s : BState)
    (h1 : ¬(cfg.autofillTimeout = 0 ∨ cfg.hasCache = false))
    (h2 : truthy (cacheGet s.cache (fullCachekey cfg)) = false) :
    (alookup (autofill cfg s).cache (fullCachekey cfg)).isSome = true := by
  rw [autofill_scan_cache cfg s h1 h2]
  exact alookup_cacheSetMany_isSome_of_mem _ _ _ ⟨some 1, List.mem_cons_self ..⟩

/-- When the sentinel raw key is not itself a registry key, the warming
branch leaves the sentinel entry with the truthy marker 1. -/
theorem autofill_sentinel_one (cfg : Config) (s : BState)
    (h1 : ¬(cfg.autofillTimeout = 0 ∨ cfg.hasCache = false))
    (h2 : truthy (cacheGet s.cache (fullCachekey cfg)) = false)
    (hreg : autofillCachekey ∉ cfg.registry) :
    alookup (autofill cfg s).cache (fullCachekey cfg) = some (some 1) := by
  rw [autofill_scan_cache cfg s h1 h2]
  apply alookup_cacheSetMany_head
  intro kv hkv he
  obtain ⟨_, raw, hr, hpx⟩ := autofill_written_mem cfg s (x := kv.1) (v := kv.2)
    (by rw [Prod.mk.eta]; exact hkv)
  have hraw : raw = autofillCachekey := addPfx_inj (by rw [hpx, he]; rfl)
  exact hreg (hraw ▸ hr)

/-! ### set characterisation -/

/-- With the store unavailable the initial row fetch of set raises and the
whole call is a no-op. -/
theorem set_noop_down (cfg : Config) (s : BState) (key : String) (value : Val)
    (h : s.storeUp = false) : set cfg s key value = s := by
  simp [set, h]

/-- With the store available, set updates or creates the row for the
prefixed key, overwrites the cache entry when a cache is configured, and
appends exactly one notification carrying the prefixed key, the prior
stored value (None for a fresh row) and the new value. -/
theorem set_eq (cfg : Config) (s : BState) (key : String) (value : Val)
    (h : s.storeUp = true) :
    (set cfg s key value).notifications
        = s.notifications ++ [(addPfx cfg key,
            (alookup s.store (addPfx cfg key)).getD Option.none, value)] ∧
    (set cfg s key value).storeUp = true ∧
    (∀ p ∈ (set cfg s key value).store, p.1 = addPfx cfg key → p.2 = value) ∧
    alookup (set cfg s key value).store (addPfx cfg key) = some value ∧
    (set cfg s key value).cache
        = (if cfg.hasCache then cacheSet s.cache (addPfx cfg key) value else s.cache) := by
  unfold set
  rw [if_neg (by simp [h])]
  rcases ho : alookup s.store (addPfx cfg key) with _ | v0
  · refine ⟨?_, ?_, ?_, ?_, ?_⟩
    · cases hc : cfg.hasCache <;> simp [hc, ho]
    · cases hc : cfg.hasCache <;> simp [hc, ho, h]
    · intro p hp hk
      cases hc : cfg.hasCache <;> simp [hc, ho] at hp
      all_goals {
        rcases hp with hp | hp
        · exact absurd hk ((alookup_eq_none_iff s.store (addPfx cfg key)).mp ho p hp)
        · rw [hp] }
    · cases hc : cfg.hasCache <;> simp [hc, ho, alookup_append_none s.store _ _ ho]
    · cases hc : cfg.hasCache <;> simp [hc, ho]
  · refine ⟨?_, ?_, ?_, ?_, ?_⟩
    · cases hc : cfg.hasCache <;> simp [hc, ho]
    · cases hc : cfg.hasCache <;> simp [hc, ho, h]
    · intro p hp hk
      cases hc : cfg.hasCache <;> simp [hc, ho] at hp
      all_goals exact updateKey_mem_val hp hk
    · cases hc : cfg.hasCache <;> simp [hc, ho, alookup_updateKey_self]
    · cases hc : cfg.hasCache <;> simp [hc, ho]

/-! ### mget and get structural lemmas -/

theorem storeFetch_fst_down (s : BState) (kmap : List (String × String))
    (h : s.storeUp = false) : (storeFetch s kmap).1 = [] := by
  unfold storeFetch
  simp [h]

theorem alookup_of_cacheGet_ne {c : List (String × Val)} {x : String}
    (h : ¬cacheGet c x = Option.none) : alookup c x = some (cacheGet c x) := by
  rcases ho : alookup c x with _ | v
  · exact absurd (by rw [cacheGet_eq, ho]; rfl) h
  · rw [cacheGet_of_alookup_some ho]

theorem alookup_isSome_of_mem_fst {α : Type} {l : List (String × α)} {x : String}
    (h : x ∈ l.map Prod.fst) : (alookup l x).isSome = true := by
  obtain ⟨p, hp, he⟩ := List.mem_map.mp h
  subst he
  exact alookup_isSome_of_mem (by rw [Prod.mk.eta]; exact hp)

/-- A batch-get hit against the prefixed key dict is a genuine cache entry
and maps back to a raw key that re-prefixes to the hit key. -/
theorem cacheHit_pair (cfg : Config) (keys : List String) (c : List (String × Val))
    {p : String × Val} (hp : p ∈ cacheGetMany c ((kdict cfg keys).map Prod.fst)) :
    addPfx cfg ((alookup (kdict cfg keys) p.1).getD "") = p.1 ∧ alookup c p.1 = some p.2 := by
  obtain ⟨ha, hks⟩ := mem_cacheGetMany hp
  refine ⟨?_, ha⟩
  have hsome : (alookup (kdict cfg keys) p.1).isSome = true := alookup_isSome_of_mem_fst hks
  rcases ho : alookup (kdict cfg keys) p.1 with _ | raw
  · rw [ho] at hsome
    simp at hsome
  · simpa using (alookup_kdict_some ho).1

theorem mget_empty (cfg : Config) (s : BState) (fallback : Bool) (keys : List String)
    (h : keys.isEmpty = true) : mget cfg s keys fallback = ([], s) := by
  unfold mget
  simp [h]

theorem mget_no_fallback_path (cfg : Config) (s : BState) (keys : List String)
    (fallback : Bool) (h : (cfg.hasCache && fallback) = false)
    (hne : keys.isEmpty = false) :
    mget cfg s keys fallback = storeFetch s (kdict cfg keys) := by
  unfold mget
  simp [h, hne]

/-- Shape of a cached fallback mget: there is an intermediate state (the
counter-bumped input, or the autofilled and twice-bumped input when the
first batch get fell short) against whose cache the hits were read, the
yields start with those hits mapped back to raw keys, and the still-missing
dict entries go to one storeFetch. -/
theorem mget_shape (cfg : Config) (s : BState) (keys : List String)
    (hne : keys.isEmpty = false) (hc : cfg.hasCache = true) :
    ∃ s' : BState,
      ((mgetHits cfg s keys).length = (kdict cfg keys).length ∧
          s' = { s with nGetMany := s.nGetMany + 1 } ∨
        (mgetHits cfg s keys).length ≠ (kdict cfg keys).length ∧
          s' = { autofill cfg { s with nGetMany := s.nGetMany + 1 } with
                   nGetMany :=
                     (autofill cfg { s with nGetMany := s.nGetMany + 1 }).nGetMany + 1 }) ∧
      (mgetPending cfg s' keys = [] →
        mget cfg s keys true = (mgetYield cfg s' keys, s')) ∧
      (mgetPending cfg s' keys ≠ [] →
        mget cfg s keys true =
          (mgetYield cfg s' keys ++ (storeFetch s' (mgetPending cfg s' keys)).1,
           (storeFetch s' (mgetPending cfg s' keys)).2)) := by
  have hcache : ∀ u : BState, mgetHits cfg u keys
      = cacheGetMany u.cache ((kdict cfg keys).map Prod.fst) := fun _ => rfl
  by_cases hlen : (mgetHits cfg s keys).length = (kdict cfg keys).length
  · refine ⟨{ s with nGetMany := s.nGetMany + 1 }, Or.inl ⟨hlen, rfl⟩, ?_, ?_⟩ <;>
      · intro hrem
        rw [mgetHits] at hlen
        unfold mget
        simp only [mgetPending, mgetYield, mgetHits] at hrem ⊢
        simp [hne, hc, hlen, hrem, List.isEmpty_iff]
  · refine ⟨{ autofill cfg { s with nGetMany := s.nGetMany + 1 } with
        nGetMany := (autofill cfg { s with nGetMany := s.nGetMany + 1 }).nGetMany + 1 },
      Or.inr ⟨hlen, rfl⟩, ?_, ?_⟩ <;>
      · intro hrem
        rw [mgetHits] at hlen
        unfold mget
        simp only [mgetPending, mgetYield, mgetHits] at hrem ⊢
        simp [hne, hc, hlen, hrem, List.isEmpty_iff]

theorem mgetYield_mem (cfg : Config) (u : BState) (keys : List String)
    {kv : String × Val} (h : kv ∈ mgetYield cfg u keys) :
    alookup u.cache (addPfx cfg kv.1) = some kv.2 := by
  obtain ⟨p, hp, he⟩ := List.mem_map.mp h
  obtain ⟨h1, h2⟩ := cacheHit_pair cfg keys u.cache hp
  rw [← he]
  simpa [h1] using h2

/-! ## The claims -/

/-- C2, counterexample: with the default nonempty DATABASE_PREFIX the
notification of set carries the prefixed key, not the key as given by the
caller. -/
theorem set_notification_key_counterexample :
    (set exCfgPfx exBase "a" (some 5)).notifications
        = [("constance:a", Option.none, some 5)] ∧
      ("constance:a" : String) ≠ "a" := by
  constructor
  · rfl
  · decide

/-- C2 (amended): every completed set(K, V) (store available) appends
exactly one notification carrying the prefixed key, the prior stored value
of that row (the absent marker None for a brand-new key), and V. -/
theorem set_notification_payload (cfg : Config) (s : BState) (K : String) (V : Val)
    (h : s.storeUp = true) :
    (set cfg s K V).notifications
      = s.notifications ++ [(addPfx cfg K,
          (alookup s.store (addPfx cfg K)).getD Option.none, V)] :=
  (set_eq cfg s K V h).1

/-- C2 witness at a fresh key. -/
theorem set_notification_payload_witness :
    (set exCfg exBase "b" (some 4)).notifications
      = exBase.notifications ++ [(addPfx exCfg "b",
          (alookup exBase.store (addPfx exCfg "b")).getD Option.none, some 4)] :=
  set_notification_payload exCfg exBase "b" (some 4) rfl

/-- C5, counterexample: with the store unavailable, get of a key the cache
still resolves returns the cached value, not the absent marker. -/
theorem store_down_get_counterexample :
    (get exCfg exStDown "a").1 = some 7 ∧ ¬(get exCfg exStDown "a").1 = Option.none := by
  constructor
  · rfl
  · decide

/-- C5 (amended): with every durable-store operation raising the transient
unavailable condition, set is a complete no-op, get returns the absent
marker unless its final cache resolves the key to the value returned, and
mget yields only pairs its final cache resolves; none of them raises (the
embedding is total, every catching call site is modelled). -/
theorem store_down_resilience (cfg : Config) (s : BState) (K : String) (V : Val)
    (keys : List String) (h : s.storeUp = false) :
    set cfg s K V = s ∧
    ((get cfg s K).1 = Option.none ∨
      alookup ((get cfg s K).2).cache (addPfx cfg K) = some ((get cfg s K).1)) ∧
    (∀ kv ∈ (mget cfg s keys true).1,
      alookup ((mget cfg s keys true).2).cache (addPfx cfg kv.1) = some kv.2) := by
  refine ⟨set_noop_down cfg s K V h, ?_, ?_⟩
  · unfold get
    by_cases hc : cfg.hasCache
    · by_cases hv : cacheGet s.cache (addPfx cfg K) = Option.none
      · have hup : (autofill cfg s).storeUp = false := by
          rw [(autofill_frame cfg s).2.1, h]
        by_cases hv2 : cacheGet (autofill cfg s).cache (addPfx cfg K) = Option.none
        · left
          simp [hc, hv, hv2, hup]
        · right
          simp [hc, hv, hv2, hup]
          exact alookup_of_cacheGet_ne hv2
      · right
        simp [hc, hv]
        exact alookup_of_cacheGet_ne hv
    · left
      simp [hc, h]
  · intro kv hkv
    cases hne : keys.isEmpty with
    | true =>
      rw [mget_empty cfg s true keys hne] at hkv
      simp at hkv
    | false =>
      by_cases hc : cfg.hasCache
      · obtain ⟨s', hs', hemp, hnemp⟩ := mget_shape cfg s keys hne hc
        have hup' : s'.storeUp = false := by
          rcases hs' with ⟨_, rfl⟩ | ⟨_, rfl⟩
          · exact h
          · show (autofill cfg { s with nGetMany := s.nGetMany + 1 }).storeUp = false
            rw [(autofill_frame cfg _).2.1]
            exact h
        by_cases hpend : mgetPending cfg s' keys = []
        · rw [hemp hpend] at hkv ⊢
          exact mgetYield_mem cfg s' keys hkv
        · rw [hnemp hpend] at hkv ⊢
          rw [storeFetch_fst_down s' _ hup', List.append_nil] at hkv
          rw [storeFetch_snd]
          exact mgetYield_mem cfg s' keys hkv
      · have hcf : (cfg.hasCache && true) = false := by simp [hc]
        rw [mget_no_fallback_path cfg s keys true hcf hne] at hkv
        rw [storeFetch_fst_down s _ h] at hkv
        simp at hkv

/-- C5 witness: store down, one stale cached entry. -/
theorem store_down_resilience_witness :
    set exCfg exStDown "a" (some 3) = exStDown ∧
    ((get exCfg exStDown "a").1 = Option.none ∨
      alookup ((get exCfg exStDown "a").2).cache (addPfx exCfg "a")
        = some ((get exCfg exStDown "a").1)) ∧
    (∀ kv ∈ (mget exCfg exStDown ["a"] true).1,
      alookup ((mget exCfg exStDown ["a"] true).2).cache (addPfx exCfg kv.1)
        = some kv.2) :=
  store_down_resilience exCfg exStDown "a" (some 3) ["a"] rfl

/-- C6: the post_save invalidation handler is a no-op on a fresh creation or
without a cache, and otherwise equals one delete_many of every prefixed
registry key plus the sentinel (all of which are then absent) followed by
one autofill invocation. -/
theorem clear_invalidation (cfg : Config) (s : BState) (created : Bool) :
    (created = true → clear cfg s created = s) ∧
    (cfg.hasCache = false → clear cfg s created = s) ∧
    (cfg.hasCache = true → created = false →
      clear cfg s created
          = autofill cfg { s with cache := cacheDeleteMany s.cache (clearKeys cfg) } ∧
      (clear cfg s created).nAutofill = s.nAutofill + 1 ∧
      (∀ k ∈ cfg.registry,
        alookup (cacheDeleteMany s.cache (clearKeys cfg)) (addPfx cfg k) = none) ∧
      alookup (cacheDeleteMany s.cache (clearKeys cfg)) (fullCachekey cfg) = none) := by
  refine ⟨?_, ?_, ?_⟩
  · intro h
    simp [clear, h]
  · intro h
    simp [clear, h]
  · intro hc hcr
    refine ⟨by simp [clear, hc, hcr], ?_, ?_, ?_⟩
    · have e : clear cfg s created
          = autofill cfg { s with cache := cacheDeleteMany s.cache (clearKeys cfg) } := by
        simp [clear, hc, hcr]
      rw [e, (autofill_frame cfg _).2.2.2.2.2.1]
    · intro k hk
      rw [alookup_cacheDeleteMany, if_pos]
      exact List.mem_append_left _ (List.mem_map_of_mem _ hk)
    · rw [alookup_cacheDeleteMany, if_pos]
      exact List.mem_append_right _ (List.mem_singleton.mpr rfl)

/-- C6 witness: an edit (created = false) with one registry key. -/
theorem clear_invalidation_witness :
    clear exCfgA exStClear false
        = autofill exCfgA
            { exStClear with cache := cacheDeleteMany exStClear.cache (clearKeys exCfgA) } ∧
    alookup (cacheDeleteMany exStClear.cache (clearKeys exCfgA)) (addPfx exCfgA "A") = none ∧
    clear exCfgA exStClear true = exStClear :=
  ⟨((clear_invalidation exCfgA exStClear false).2.2 rfl rfl).1,
   ((clear_invalidation exCfgA exStClear false).2.2 rfl rfl).2.2.1 "A" (by decide),
   (clear_invalidation exCfgA exStClear true).1 rfl⟩

/-- C9: whenever autofill reaches its warming branch (cache configured,
nonzero window, sentinel not cached truthy), a sentinel entry is written to
the cache — and in particular when the durable store is unavailable and the
swallowed scan yields nothing, the sentinel is cached with its truthy
marker 1, no other cache entry changes, and an immediately following
autofill performs nothing beyond counting its invocation. -/
theorem autofill_sentinel_even_on_failure (cfg : Config) (s : BState)
    (hc : cfg.hasCache = true) (ht : cfg.autofillTimeout ≠ 0)
    (hg : truthy (cacheGet s.cache (fullCachekey cfg)) = false) :
    (alookup (autofill cfg s).cache (fullCachekey cfg)).isSome = true ∧
    (s.storeUp = false →
      alookup (autofill cfg s).cache (fullCachekey cfg) = some (some 1) ∧
      (∀ x, x ≠ fullCachekey cfg →
        alookup (autofill cfg s).cache x = alookup s.cache x) ∧
      autofill cfg (autofill cfg s)
        = { autofill cfg s with nAutofill := (autofill cfg s).nAutofill + 1 }) := by
  have h1 : ¬(cfg.autofillTimeout = 0 ∨ cfg.hasCache = false) := by simp [hc, ht]
  refine ⟨autofill_sentinel_isSome cfg s h1 hg, ?_⟩
  intro hdown
  have hpairs : (if s.storeUp && !cfg.registry.isEmpty then
      s.store.filter (fun q => (alookup (kdict cfg cfg.registry) q.1).isSome)
    else ([] : List (String × Val))) = [] := by
    rw [hdown]
    rfl
  have hcache : (autofill cfg s).cache
      = cacheSet s.cache (fullCachekey cfg) (some 1) := by
    rw [autofill_scan_cache cfg s h1 hg, hpairs]
    rfl
  have ha : alookup (autofill cfg s).cache (fullCachekey cfg) = some (some 1) := by
    rw [hcache]
    exact alookup_cacheSet_self _ _ _
  refine ⟨ha, ?_, ?_⟩
  · intro x hx
    rw [hcache]
    exact alookup_cacheSet_ne _ _ _ _ hx
  · apply autofill_noop
    refine Or.inr (Or.inr ?_)
    rw [cacheGet_of_alookup_some ha]
    rfl

/-- C9 witness: store unavailable, cold cache. -/
theorem autofill_sentinel_even_on_failure_witness :
    (alookup (autofill exCfgA { exBase with storeUp := false }).cache
        (fullCachekey exCfgA)).isSome = true ∧
    alookup (autofill exCfgA { exBase with storeUp := false }).cache
        (fullCachekey exCfgA) = some (some 1) := by
  have h := autofill_sentinel_even_on_failure exCfgA { exBase with storeUp := false }
    rfl (by decide) (by decide)
  exact ⟨h.1, (h.2 rfl).1⟩

/-- C4, counterexample: register the sentinel raw key over a falsy durable
value; after autofill runs, the sentinel entry is present in the cache,
yet the immediately following autofill call performs another durable scan. -/
theorem autofill_idempotence_counterexample :
    (alookup (autofill exCfgSent exStSent).cache (fullCachekey exCfgSent)).isSome = true ∧
    (autofill exCfgSent (autofill exCfgSent exStSent)).nScans
        = (autofill exCfgSent exStSent).nScans + 1 := by
  constructor
  · rfl
  · rfl

/-- C4 (amended): an autofill call finding the sentinel cached with a
truthy value changes nothing but its invocation count; and provided the
sentinel raw key is not itself a registry key, two successive autofill
calls scan the durable store at most once and the second writes nothing to
the cache. -/
theorem autofill_idempotent (cfg : Config) (s : BState) :
    (truthy (cacheGet s.cache (fullCachekey cfg)) = true →
      autofill cfg s = { s with nAutofill := s.nAutofill + 1 }) ∧
    (autofillCachekey ∉ cfg.registry →
      (autofill cfg (autofill cfg s)).nScans ≤ s.nScans + 1 ∧
      (autofill cfg (autofill cfg s)).cache = (autofill cfg s).cache) := by
  constructor
  · intro h
    exact autofill_noop cfg s (Or.inr (Or.inr h))
  · intro hreg
    by_cases h1 : cfg.autofillTimeout = 0 ∨ cfg.hasCache = false
    · have e1 : autofill cfg s = { s with nAutofill := s.nAutofill + 1 } :=
        autofill_noop cfg s (by tauto)
      have e2 : autofill cfg (autofill cfg s)
          = { autofill cfg s with nAutofill := (autofill cfg s).nAutofill + 1 } :=
        autofill_noop cfg (autofill cfg s) (by tauto)
      rw [e2, e1]
      simp
    · cases h2 : truthy (cacheGet s.cache (fullCachekey cfg)) with
      | true =>
        have e1 : autofill cfg s = { s with nAutofill := s.nAutofill + 1 } :=
          autofill_noop cfg s (Or.inr (Or.inr h2))
        have h2' : truthy (cacheGet (autofill cfg s).cache (fullCachekey cfg)) = true := by
          rw [e1]
          exact h2
        have e2 : autofill cfg (autofill cfg s)
            = { autofill cfg s with nAutofill := (autofill cfg s).nAutofill + 1 } :=
          autofill_noop cfg (autofill cfg s) (Or.inr (Or.inr h2'))
        rw [e2, e1]
        simp
      | false =>
        have hs1 : alookup (autofill cfg s).cache (fullCachekey cfg) = some (some 1) :=
          autofill_sentinel_one cfg s h1 h2 hreg
        have h2' : truthy (cacheGet (autofill cfg s).cache (fullCachekey cfg)) = true := by
          rw [cacheGet_of_alookup_some hs1]
          rfl
        have e2 : autofill cfg (autofill cfg s)
            = { autofill cfg s with nAutofill := (autofill cfg s).nAutofill + 1 } :=
          autofill_noop cfg (autofill cfg s) (Or.inr (Or.inr h2'))
        constructor
        · rw [e2]
          simpa using (autofill_frame cfg s).2.2.2.2.2.2.2
        · rw [e2]

/-- C4 witness: warmed cache, empty registry. -/
theorem autofill_idempotent_witness :
    autofill exCfg exStWarm = { exStWarm with nAutofill := exStWarm.nAutofill + 1 } ∧
    (autofill exCfg (autofill exCfg exStWarm)).nScans ≤ exStWarm.nScans + 1 :=
  ⟨(autofill_idempotent exCfg exStWarm).1 (by decide),
   ((autofill_idempotent exCfg exStWarm).2 (by decide)).1⟩

/-- C10: get conflates the absent marker with a stored None.  If the cache
resolves the prefixed key to None (an entry storing None, or no entry at
all), get treats that as a miss: it invokes autofill and then, for a key
neither registered nor equal to the sentinel raw key, performs a single-row
durable fetch; with the store available its result is the durable value of
the key, so both a missing row and a row storing None come back as the
absent marker None. -/
theorem get_conflates_none (cfg : Config) (s : BState) (K : String)
    (hc : cfg.hasCache = true) (hreg : K ∉ cfg.registry) (hK : K ≠ autofillCachekey)
    (hmiss : cacheGet s.cache (addPfx cfg K) = Option.none) :
    ((get cfg s K).2).nAutofill = s.nAutofill + 1 ∧
    ((get cfg s K).2).nStoreGets = s.nStoreGets + 1 ∧
    (s.storeUp = true →
      (get cfg s K).1 = (alookup s.store (addPfx cfg K)).getD Option.none) := by
  have hx : addPfx cfg K ≠ fullCachekey cfg := fun he => hK (addPfx_inj he)
  have huntouched : alookup (autofill cfg s).cache (addPfx cfg K)
      = alookup s.cache (addPfx cfg K) :=
    autofill_cacheGet_untouched cfg s _ hx
      (fun raw hr he => hreg (by rw [← addPfx_inj he]; exact hr))
  have hmiss2 : cacheGet (autofill cfg s).cache (addPfx cfg K) = Option.none := by
    rw [cacheGet_congr huntouched]
    exact hmiss
  have hframe := autofill_frame cfg s
  have hst : (autofill cfg s).store = s.store := hframe.1
  have hsu : (autofill cfg s).storeUp = s.storeUp := hframe.2.1
  have hna : (autofill cfg s).nAutofill = s.nAutofill + 1 := hframe.2.2.2.2.2.1
  have hns : (autofill cfg s).nStoreGets = s.nStoreGets := hframe.2.2.2.2.1
  cases hup : s.storeUp with
  | true =>
    rcases ho : alookup s.store (addPfx cfg K) with _ | v
    · unfold get
      simp [hc, hmiss, hmiss2, hup, ho, hst, hsu, hna, hns]
    · unfold get
      simp [hc, hmiss, hmiss2, hup, ho, hst, hsu, hna, hns]
  | false =>
    unfold get
    simp [hc, hmiss, hmiss2, hup, hst, hsu, hna, hns]

/-- C10 witness: a cached None entry over a durable row storing 3. -/
theorem get_conflates_none_witness :
    ((get exCfgB exStConf "a").2).nAutofill = exStConf.nAutofill + 1 ∧
    ((get exCfgB exStConf "a").2).nStoreGets = exStConf.nStoreGets + 1 ∧
    (exStConf.storeUp = true →
      (get exCfgB exStConf "a").1
        = (alookup exStConf.store (addPfx exCfgB "a")).getD Option.none) :=
  get_conflates_none exCfgB exStConf "a" rfl (by decide) (by decide) (by decide)

/-- C1, counterexample: set the sentinel raw key to None; get then returns
the sentinel marker 1 that the triggered autofill wrote over the entry, not
the value that was set. -/
theorem set_then_get_counterexample :
    ¬(get exCfg (set exCfg exBase "autofilled" Option.none) "autofilled").1
        = Option.none ∧
    (get exCfg (set exCfg exBase "autofilled" Option.none) "autofilled").1 = some 1 := by
  constructor
  · decide
  · rfl

/-- C1 (amended): with a cache configured and the store available, after
set(K, V) completes, get(K) returns V - except in the corner where K is the
reserved sentinel raw key and V is the absent marker None, which the
triggered autofill can overwrite with the sentinel marker. -/
theorem set_then_get (cfg : Config) (s : BState) (K : String) (V : Val)
    (hc : cfg.hasCache = true) (hup : s.storeUp = true)
    (hKV : K ≠ autofillCachekey ∨ V ≠ Option.none) :
    (get cfg (set cfg s K V) K).1 = V := by
  obtain ⟨hnot, hsup, hall, hlook, hcache⟩ := set_eq cfg s K V hup
  cases V with
  | none =>
    have hK : K ≠ autofillCachekey := hKV.resolve_right (by simp)
    have hx : addPfx cfg K ≠ fullCachekey cfg := fun he => hK (addPfx_inj he)
    have hcg : cacheGet (set cfg s K Option.none).cache (addPfx cfg K)
        = Option.none := by
      rw [hcache, if_pos hc]
      exact cacheGet_of_alookup_some (alookup_cacheSet_self _ _ _)
    have hstays : cacheGet (autofill cfg (set cfg s K Option.none)).cache
        (addPfx cfg K) = Option.none :=
      autofill_cacheGet_stays_none cfg (set cfg s K Option.none) _ hx hall hcg
    have hst : (autofill cfg (set cfg s K Option.none)).store
        = (set cfg s K Option.none).store := (autofill_frame _ _).1
    have hsu2 : (autofill cfg (set cfg s K Option.none)).storeUp = true := by
      rw [(autofill_frame _ _).2.1, hsup]
    unfold get
    simp [hc, hcg, hstays, hsu2, hst, hlook]
  | some n =>
    have hcg : cacheGet (set cfg s K (some n)).cache (addPfx cfg K) = some n := by
      rw [hcache, if_pos hc]
      exact cacheGet_of_alookup_some (alookup_cacheSet_self _ _ _)
    unfold get
    simp [hc, hcg]

/-- C1 witness: a plain key round-trips. -/
theorem set_then_get_witness :
    (get exCfg (set exCfg exBase "a" (some 5)) "a").1 = some 5 :=
  set_then_get exCfg exBase "a" (some 5) rfl rfl (Or.inl (by decide))

theorem storeFetch_mem_of_row (s : BState) (kmap : List (String × String))
    (h : s.storeUp = true) {x : String} {w : Val} (hrow : (x, w) ∈ s.store)
    (hx : (alookup kmap x).isSome = true) :
    ((alookup kmap x).getD "", w) ∈ (storeFetch s kmap).1 := by
  unfold storeFetch
  rw [if_pos h]
  apply List.mem_map.mpr
  exact ⟨(x, w), List.mem_filter.mpr ⟨hrow, hx⟩, rfl⟩

theorem alookup_kdict_sub {cfg : Config} {keys : List String}
    {l : List (String × String)} (hsub : ∀ p ∈ l, p ∈ kdict cfg keys)
    {x raw : String} (h : alookup l x = some raw) : addPfx cfg raw = x := by
  have hm := mem_of_alookup_eq_some h
  exact ((mem_kdict (hsub _ hm)).1).symm

/-- C3: with a cache configured, the store available and a durable row
present for every requested key, mget with fallback yields a pair for every
requested key - cache hits from the (possibly autofilled) cache, the rest
from the one batched durable lookup over the still-pending keys. -/
theorem mget_miss_complete (cfg : Config) (s : BState) (keys : List String)
    (hc : cfg.hasCache = true) (hup : s.storeUp = true)
    (hall : ∀ k ∈ keys, (alookup s.store (addPfx cfg k)).isSome = true) :
    ∀ k ∈ keys, ∃ v, (k, v) ∈ (mget cfg s keys true).1 := by
  intro k hk
  have hne : keys.isEmpty = false := by
    cases keys
    · simp at hk
    · rfl
  obtain ⟨s', hs', hemp, hnemp⟩ := mget_shape cfg s keys hne hc
  have hst : s'.store = s.store := by
    rcases hs' with ⟨_, rfl⟩ | ⟨_, rfl⟩
    · rfl
    · show (autofill cfg _).store = s.store
      rw [(autofill_frame _ _).1]
  have hsu : s'.storeUp = true := by
    rcases hs' with ⟨_, rfl⟩ | ⟨_, rfl⟩
    · exact hup
    · show (autofill cfg _).storeUp = true
      rw [(autofill_frame _ _).2.1]
      exact hup
  have hkd : alookup (kdict cfg keys) (addPfx cfg k) = some k := alookup_kdict_self hk
  rcases hhit : alookup (mgetHits cfg s' keys) (addPfx cfg k) with _ | v
  · have hpendmem : (addPfx cfg k, k) ∈ mgetPending cfg s' keys := by
      rw [mgetPending]
      exact List.mem_filter.mpr ⟨mem_of_alookup_eq_some hkd, by simp [hhit]⟩
    have hpend : mgetPending cfg s' keys ≠ [] := by
      intro he
      rw [he] at hpendmem
      simp at hpendmem
    rw [hnemp hpend]
    obtain ⟨w, hw⟩ := Option.isSome_iff_exists.mp (hall k hk)
    have hrow : (addPfx cfg k, w) ∈ s'.store := by
      rw [hst]
      exact mem_of_alookup_eq_some hw
    have hpl : (alookup (mgetPending cfg s' keys) (addPfx cfg k)).isSome = true :=
      alookup_isSome_of_mem hpendmem
    rcases hpo : alookup (mgetPending cfg s' keys) (addPfx cfg k) with _ | raw
    · rw [hpo] at hpl
      simp at hpl
    · have hraw : raw = k := addPfx_inj
        (alookup_kdict_sub (fun p hp => (List.mem_filter.mp hp).1) hpo)
      refine ⟨w, List.mem_append_right _ ?_⟩
      have hmem := storeFetch_mem_of_row s' (mgetPending cfg s' keys) hsu hrow
        (by rw [hpo]; rfl)
      rw [hpo] at hmem
      simpa [hraw] using hmem
  · have hyieldmem : (k, v) ∈ mgetYield cfg s' keys := by
      rw [mgetYield]
      refine List.mem_map.mpr ⟨(addPfx cfg k, v), mem_of_alookup_eq_some hhit, ?_⟩
      simp [hkd]
    by_cases hpend : mgetPending cfg s' keys = []
    · rw [hemp hpend]
      exact ⟨v, hyieldmem⟩
    · rw [hnemp hpend]
      exact ⟨v, List.mem_append_left _ hyieldmem⟩

/-- C3 witness: the spec scenario - cache holds A, the store holds A and B. -/
theorem mget_miss_complete_witness :
    (∃ v, ("A", v) ∈ (mget exCfgAB exStAB ["A", "B"] true).1) ∧
    (∃ v, ("B", v) ∈ (mget exCfgAB exStAB ["A", "B"] true).1) :=
  ⟨mget_miss_complete exCfgAB exStAB ["A", "B"] rfl rfl (by decide) "A" (by decide),
   mget_miss_complete exCfgAB exStAB ["A", "B"] rfl rfl (by decide) "B" (by decide)⟩

/-- C7: a cached fallback mget runs the cache batch get at most twice, and
when the first batch get resolves fewer dict entries than requested it
invokes autofill exactly once and runs exactly one more batch get. -/
theorem mget_bounded_retry (cfg : Config) (s : BState) (keys : List String)
    (hc : cfg.hasCache = true) :
    (mget cfg s keys true).2.nGetMany ≤ s.nGetMany + 2 ∧
    (keys.isEmpty = false →
      (mgetHits cfg s keys).length ≠ (kdict cfg keys).length →
      (mget cfg s keys true).2.nGetMany = s.nGetMany + 2 ∧
      (mget cfg s keys true).2.nAutofill = s.nAutofill + 1) := by
  cases hne : keys.isEmpty with
  | true =>
    rw [mget_empty cfg s true keys hne]
    refine ⟨Nat.le_add_right s.nGetMany 2, ?_⟩
    intro h1
    simp [hne] at h1
  | false =>
    obtain ⟨s', hs', hemp, hnemp⟩ := mget_shape cfg s keys hne hc
    have hfin : (mget cfg s keys true).2.nGetMany = s'.nGetMany ∧
        (mget cfg s keys true).2.nAutofill = s'.nAutofill := by
      by_cases hpend : mgetPending cfg s' keys = []
      · rw [hemp hpend]
        exact ⟨rfl, rfl⟩
      · rw [hnemp hpend, storeFetch_snd]
        exact ⟨rfl, rfl⟩
    rcases hs' with ⟨hlen, rfl⟩ | ⟨hlen, rfl⟩
    · refine ⟨?_, ?_⟩
      · rw [hfin.1]
        simp
      · intro _ hmiss
        exact absurd hlen hmiss
    · have hA := autofill_frame cfg { s with nGetMany := s.nGetMany + 1 }
      have hg : ({ autofill cfg { s with nGetMany := s.nGetMany + 1 } with
          nGetMany :=
            (autofill cfg { s with nGetMany := s.nGetMany + 1 }).nGetMany + 1 }).nGetMany
          = s.nGetMany + 2 := by
        show (autofill cfg { s with nGetMany := s.nGetMany + 1 }).nGetMany + 1
            = s.nGetMany + 2
        rw [hA.2.2.2.1]
      have hauto : ({ autofill cfg { s with nGetMany := s.nGetMany + 1 } with
          nGetMany :=
            (autofill cfg { s with nGetMany := s.nGetMany + 1 }).nGetMany + 1 }).nAutofill
          = s.nAutofill + 1 := by
        show (autofill cfg { s with nGetMany := s.nGetMany + 1 }).nAutofill
            = s.nAutofill + 1
        rw [hA.2.2.2.2.2.1]
      refine ⟨by rw [hfin.1, hg], fun _ _ => ⟨by rw [hfin.1, hg], by rw [hfin.2, hauto]⟩⟩

/-- C7 witness: a cold cache over one registered key forces the retry. -/
theorem mget_bounded_retry_witness :
    (mget exCfgA exStA ["A"] true).2.nGetMany ≤ exStA.nGetMany + 2 ∧
    ((["A"] : List String).isEmpty = false →
      (mgetHits exCfgA exStA ["A"]).length ≠ (kdict exCfgA ["A"]).length →
      (mget exCfgA exStA ["A"] true).2.nGetMany = exStA.nGetMany + 2 ∧
      (mget exCfgA exStA ["A"] true).2.nAutofill = exStA.nAutofill + 1) :=
  mget_bounded_retry exCfgA exStA ["A"] rfl

/-! ### The create race: invariant and progress -/

theorem PCok_congr {k : String} {store store' : List (String × Val)}
    (h : countKey store' k = countKey store k) {q : PC} (hq : PCok k store q) :
    PCok k store' q := by
  cases q with
  | start => trivial
  | create => trivial
  | refetch =>
    show countKey store' k = 1
    rw [h]
    exact hq
  | update w =>
    show countKey store' k = 1
    rw [h]
    exact hq
  | done w =>
    show countKey store' k = 1
    rw [h]
    exact hq
  | crashed => exact hq

theorem pstep_inv (k : String) (v1 v2 v : Val) (hv : v = v1 ∨ v = v2)
    (store : List (String × Val)) (p q : PC)
    (h1 : countKey store k ≤ 1)
    (h2 : ∀ w, alookup store k = some w → w = v1 ∨ w = v2)
    (hp : PCok k store p) (hq : PCok k store q) :
    countKey (pstep k v store p).1 k ≤ 1 ∧
    (∀ w, alookup (pstep k v store p).1 k = some w → w = v1 ∨ w = v2) ∧
    PCok k (pstep k v store p).1 (pstep k v store p).2 ∧
    PCok k (pstep k v store p).1 q := by
  cases p with
  | start =>
    rcases ho : alookup store k with _ | w
    · simp only [pstep, ho]
      refine ⟨h1, ?_, trivial, hq⟩
      intro w' hw'
      exact h2 w' (by rw [ho]; exact hw')
    · have hc1 : countKey store k = 1 :=
        Nat.le_antisymm h1 (countKey_pos_of_isSome (by rw [ho]; rfl))
      simp only [pstep, ho]
      refine ⟨h1, ?_, hc1, hq⟩
      intro w' hw'
      exact h2 w' (by rw [ho]; exact hw')
  | create =>
    rcases ho : alookup store k with _ | w
    · have hc0 : countKey store k = 0 := (countKey_eq_zero_iff _ _).mpr ho
      simp only [pstep, ho]
      refine ⟨?_, ?_, ?_, ?_⟩
      · rw [countKey_append, hc0]
        simp
      · intro w hw
        rw [alookup_append_none _ _ _ ho] at hw
        simp at hw
        exact hw ▸ hv
      · show countKey (store ++ [(k, v)]) k = 1
        rw [countKey_append, hc0]
        simp
      · cases q with
        | start => trivial
        | create => trivial
        | refetch =>
          have hcq : countKey store k = 1 := hq
          exact absurd hcq (by omega)
        | update w =>
          have hcq : countKey store k = 1 := hq
          exact absurd hcq (by omega)
        | done w =>
          have hcq : countKey store k = 1 := hq
          exact absurd hcq (by omega)
        | crashed => exact hq.elim
    · have hc1 : countKey store k = 1 :=
        Nat.le_antisymm h1 (countKey_pos_of_isSome (by rw [ho]; rfl))
      simp only [pstep, ho]
      refine ⟨h1, ?_, hc1, hq⟩
      intro w' hw'
      exact h2 w' (by rw [ho]; exact hw')
  | refetch =>
    have hc1 : countKey store k = 1 := hp
    have hs : (alookup store k).isSome = true := isSome_of_countKey_pos (by omega)
    rcases ho : alookup store k with _ | w
    · rw [ho] at hs
      simp at hs
    · simp only [pstep, ho]
      refine ⟨h1, ?_, hc1, hq⟩
      intro w' hw'
      exact h2 w' (by rw [ho]; exact hw')
  | update w =>
    have hc1 : countKey store k = 1 := hp
    have hcnt : countKey (updateKey store k v) k = countKey store k :=
      countKey_updateKey store k k v
    simp only [pstep]
    refine ⟨by omega, ?_, ?_, PCok_congr (by rw [hcnt]) hq⟩
    · intro w' hw'
      rw [alookup_updateKey_self] at hw'
      rcases hoo : alookup store k with _ | u
      · rw [hoo] at hw'
        simp at hw'
      · rw [hoo] at hw'
        simp at hw'
        exact hw' ▸ hv
    · show countKey (updateKey store k v) k = 1
      omega
  | done w =>
    simp only [pstep]
    exact ⟨h1, h2, hp, hq⟩
  | crashed => exact hp.elim

theorem cstep_inv {k : String} {v1 v2 : Val} {st : CState}
    (h : Inv k v1 v2 st) (b : Bool) : Inv k v1 v2 (cstep k v1 v2 st b) := by
  obtain ⟨h1, h2, hp1, hp2⟩ := h
  cases b with
  | false =>
    have h' := pstep_inv k v1 v2 v2 (Or.inr rfl) st.store st.p2 st.p1 h1 h2 hp2 hp1
    exact ⟨h'.1, h'.2.1, h'.2.2.2, h'.2.2.1⟩
  | true =>
    have h' := pstep_inv k v1 v2 v1 (Or.inl rfl) st.store st.p1 st.p2 h1 h2 hp1 hp2
    exact ⟨h'.1, h'.2.1, h'.2.2.1, h'.2.2.2⟩

theorem crun_inv {k : String} {v1 v2 : Val} (sched : List Bool) {st : CState}
    (h : Inv k v1 v2 st) : Inv k v1 v2 (crun k v1 v2 st sched) := by
  induction sched generalizing st with
  | nil => exact h
  | cons b rest ih => exact ih (cstep_inv h b)

theorem pstep_rank_lt (k : String) (v : Val) (store : List (String × Val)) (p : PC)
    (hp : PCok k store p) (hnd : ∀ w, p ≠ PC.done w) :
    rank (pstep k v store p).2 < rank p := by
  cases p with
  | start => rcases ho : alookup store k with _ | w <;> simp [pstep, ho, rank]
  | create => rcases ho : alookup store k with _ | w <;> simp [pstep, ho, rank]
  | refetch =>
    have hc1 : countKey store k = 1 := hp
    have hs : (alookup store k).isSome = true := isSome_of_countKey_pos (by omega)
    rcases ho : alookup store k with _ | w
    · rw [ho] at hs
      simp at hs
    · simp [pstep, ho, rank]
  | update w => simp [pstep, rank]
  | done w => exact absurd rfl (hnd w)
  | crashed => exact hp.elim

theorem cstep_false_p1 (k : String) (v1 v2 : Val) (st : CState) :
    (cstep k v1 v2 st false).p1 = st.p1 := rfl

theorem cstep_true_p2 (k : String) (v1 v2 : Val) (st : CState) :
    (cstep k v1 v2 st true).p2 = st.p2 := rfl

theorem crun_done1 (k : String) (v1 v2 : Val) (sched : List Bool) (st : CState)
    (h : Inv k v1 v2 st) (hr : rank st.p1 ≤ sched.count true) :
    ∃ w, (crun k v1 v2 st sched).p1 = PC.done w := by
  induction sched generalizing st with
  | nil =>
    have h0 : rank st.p1 = 0 := Nat.le_zero.mp (by simpa using hr)
    cases hp : st.p1 with
    | done w => exact ⟨w, by simp [crun, hp]⟩
    | crashed => exact absurd (hp ▸ h.2.2.1) (by simp [PCok])
    | start =>
      rw [hp] at h0
      simp [rank] at h0
    | create =>
      rw [hp] at h0
      simp [rank] at h0
    | refetch =>
      rw [hp] at h0
      simp [rank] at h0
    | update w =>
      rw [hp] at h0
      simp [rank] at h0
  | cons b rest ih =>
    cases b with
    | false =>
      refine ih _ (cstep_inv h false) ?_
      rw [cstep_false_p1]
      simpa [List.count_cons] using hr
    | true =>
      by_cases hd : ∃ w, st.p1 = PC.done w
      · obtain ⟨w, hw⟩ := hd
        refine ih _ (cstep_inv h true) ?_
        have he : (cstep k v1 v2 st true).p1 = PC.done w := by
          simp [cstep, hw, pstep]
        rw [he]
        simp [rank]
      · have hlt : rank (cstep k v1 v2 st true).p1 < rank st.p1 := by
          have hst := pstep_rank_lt k v1 st.store st.p1 h.2.2.1
            (by push_neg at hd; exact hd)
          exact hst
        refine ih _ (cstep_inv h true) ?_
        have hcnt : (true :: rest).count true = rest.count true + 1 := by
          simp [List.count_cons]
        rw [hcnt] at hr
        omega

theorem crun_done2 (k : String) (v1 v2 : Val) (sched : List Bool) (st : CState)
    (h : Inv k v1 v2 st) (hr : rank st.p2 ≤ sched.count false) :
    ∃ w, (crun k v1 v2 st sched).p2 = PC.done w := by
  induction sched generalizing st with
  | nil =>
    have h0 : rank st.p2 = 0 := Nat.le_zero.mp (by simpa using hr)
    cases hp : st.p2 with
    | done w => exact ⟨w, by simp [crun, hp]⟩
    | crashed => exact absurd (hp ▸ h.2.2.2) (by simp [PCok])
    | start =>
      rw [hp] at h0
      simp [rank] at h0
    | create =>
      rw [hp] at h0
      simp [rank] at h0
    | refetch =>
      rw [hp] at h0
      simp [rank] at h0
    | update w =>
      rw [hp] at h0
      simp [rank] at h0
  | cons b rest ih =>
    cases b with
    | true =>
      refine ih _ (cstep_inv h true) ?_
      rw [cstep_true_p2]
      simpa [List.count_cons] using hr
    | false =>
      by_cases hd : ∃ w, st.p2 = PC.done w
      · obtain ⟨w, hw⟩ := hd
        refine ih _ (cstep_inv h false) ?_
        have he : (cstep k v1 v2 st false).p2 = PC.done w := by
          simp [cstep, hw, pstep]
        rw [he]
        simp [rank]
      · have hlt : rank (cstep k v1 v2 st false).p2 < rank st.p2 := by
          have hst := pstep_rank_lt k v2 st.store st.p2 h.2.2.2
            (by push_neg at hd; exact hd)
          exact hst
        refine ih _ (cstep_inv h false) ?_
        have hcnt : (false :: rest).count false = rest.count false + 1 := by
          simp [List.count_cons]
        rw [hcnt] at hr
        omega

/-- C8: two concurrent set calls on a previously absent key, modelled at
the durable-store atomicity granularity, both reach their done state (no
uncaught error: the loser of the create race re-fetches the winner's row
and proceeds as an update) under any schedule giving each writer its at
most four needed turns, exactly one durable row for the key remains, and
its value is one of the two written values. -/
theorem set_race_convergence (k : String) (v1 v2 : Val) (store0 : List (String × Val))
    (sched : List Bool) (h0 : alookup store0 k = none)
    (ht : 4 ≤ sched.count true) (hf : 4 ≤ sched.count false) :
    (∃ w, (crun k v1 v2 ⟨store0, PC.start, PC.start⟩ sched).p1 = PC.done w) ∧
    (∃ w, (crun k v1 v2 ⟨store0, PC.start, PC.start⟩ sched).p2 = PC.done w) ∧
    countKey (crun k v1 v2 ⟨store0, PC.start, PC.start⟩ sched).store k = 1 ∧
    (alookup (crun k v1 v2 ⟨store0, PC.start, PC.start⟩ sched).store k = some v1 ∨
      alookup (crun k v1 v2 ⟨store0, PC.start, PC.start⟩ sched).store k = some v2) := by
  have hinv0 : Inv k v1 v2 ⟨store0, PC.start, PC.start⟩ := by
    refine ⟨?_, ?_, trivial, trivial⟩
    · have hc0 : countKey store0 k = 0 := (countKey_eq_zero_iff _ _).mpr h0
      show countKey store0 k ≤ 1
      omega
    · intro w hw
      rw [h0] at hw
      exact Option.noConfusion hw
  have hfin := crun_inv sched hinv0
  have hd1 := crun_done1 k v1 v2 sched _ hinv0 (by simpa [rank] using ht)
  have hd2 := crun_done2 k v1 v2 sched _ hinv0 (by simpa [rank] using hf)
  obtain ⟨w1, hw1⟩ := hd1
  have hc1 : countKey (crun k v1 v2 ⟨store0, PC.start, PC.start⟩ sched).store k = 1 := by
    have hok := hfin.2.2.1
    rw [hw1] at hok
    exact hok
  refine ⟨⟨w1, hw1⟩, hd2, hc1, ?_⟩
  have hs : (alookup (crun k v1 v2 ⟨store0, PC.start, PC.start⟩ sched).store k).isSome
      = true := isSome_of_countKey_pos (by omega)
  rcases ho : alookup (crun k v1 v2 ⟨store0, PC.start, PC.start⟩ sched).store k with _ | v
  · rw [ho] at hs
    simp at hs
  · rcases hfin.2.1 v ho with h | h
    · exact Or.inl (by rw [h])
    · exact Or.inr (by rw [h])

/-- C8 witness: writers of 1 and 2 race on a fresh key under one concrete
fair schedule. -/
theorem set_race_convergence_witness :
    (∃ w, (crun "k" (some 1) (some 2) ⟨[], PC.start, PC.start⟩
        [true, true, true, true, false, false, false, false]).p1 = PC.done w) ∧
    (∃ w, (crun "k" (some 1) (some 2) ⟨[], PC.start, PC.start⟩
        [true, true, true, true, false, false, false, false]).p2 = PC.done w) ∧
    countKey (crun "k" (some 1) (some 2) ⟨[], PC.start, PC.start⟩
        [true, true, true, true, false, false, false, false]).store "k" = 1 ∧
    (alookup (crun "k" (some 1) (some 2) ⟨[], PC.start, PC.start⟩
        [true, true, true, true, false, false, false, false]).store "k" = some (some 1) ∨
      alookup (crun "k" (some 1) (some 2) ⟨[], PC.start, PC.start⟩
        [true, true, true, true, false, false, false, false]).store "k" = some (some 2)) :=
  set_race_convergence "k" (some 1) (some 2) [] 
    [true, true, true, true, false, false, false, false] rfl (by decide) (by decide)

end Constance
